import Mathlib

/-!
Shallow embedding of the RollerOptimizer layout optimizer
(`src/optimize_layout.py`) together with proofs about the claims of its
specification.

Modelling conventions:
* Python floats (miner power, final power) are modelled as exact rationals `ℚ`;
  Python ints are modelled as `ℤ` (bonuses, floor capacities) or `ℕ`
  (widths, counts, slot units, rack counts).
* Python's stable builtin `sorted` is modelled by the stable insertion sort
  `sortBy` below.
* Python `dict` iteration order over DP width buckets is modelled by ascending
  width order.  This affects only the order of states inside a bucket before
  pruning; `prune_states` sorts the bucket, so the retained (raw, bonus)
  values are unchanged, and at most the recorded selection of a tied state can
  differ.
* `int(x)` applied to a float quotient truncates toward zero; it is modelled
  by `ratTrunc` via `Int.tdiv` on the exact rational quotient.
-/

unseal Nat.gcd Rat.add Rat.mul Rat.sub Rat.inv

/-- Truncation toward zero of a rational, the model of Python `int()` applied
to a quotient. -/
def ratTrunc (q : ℚ) : ℤ := Int.tdiv q.num q.den

/-- A normalized miner record, the output shape of `collect_miners`. -/
structure MinerRec where
  name : String
  level : ℤ
  power : ℚ
  width : ℕ
  bonus_percent : ℤ
deriving DecidableEq, Repr

/-- An item group as produced by `group_miners`: a unique
(name, level, power, width, bonus) key with a multiplicity count. -/
structure ItemGroup where
  name : String
  level : ℤ
  power : ℚ
  width : ℕ
  bonus_percent : ℤ
  count : ℕ
deriving DecidableEq, Repr

/-- Default group used to totalize list indexing (Python would raise on an
out-of-range group index; selections produced by the DP never contain one). -/
def dfltGroup : ItemGroup := ⟨"", 0, 0, 1, 0, 0⟩

/-- One step of `group_miners`' dict accumulation: bump the count of the
group with the same key, or append a fresh group with count 1 (Python dicts
keep first-insertion order). -/
def bumpGroup : List ItemGroup → MinerRec → List ItemGroup
  | [], m => [⟨m.name, m.level, m.power, m.width, m.bonus_percent, 1⟩]
  | g :: rest, m =>
      if g.name = m.name ∧ g.level = m.level ∧ g.power = m.power ∧
          g.width = m.width ∧ g.bonus_percent = m.bonus_percent then
        { g with count := g.count + 1 } :: rest
      else
        g :: bumpGroup rest m

/-- The source function `group_miners`: collapse miner records into groups keyed
by (name, level, power, width, bonus_percent) with counts. -/
def group_miners (miners : List MinerRec) : List ItemGroup :=
  miners.foldl bumpGroup []

/-- Stable insertion of `a` into `l`: `a` is placed before the first element
`b` with `le a b`. -/
def insertD {α : Type} (le : α → α → Bool) (a : α) : List α → List α
  | [] => [a]
  | b :: t => if le a b then a :: b :: t else b :: insertD le a t

/-- Stable sort wrt the boolean total preorder `le`, the model of Python's
stable `sorted`. -/
def sortBy {α : Type} (le : α → α → Bool) (l : List α) : List α :=
  l.foldr (insertD le) []

/-- A DP state `(raw_power, miner_bonus_total, selection)`; the selection maps
group indices to chosen counts (only indices with count ≥ 1 are recorded, as
in the Python dict). -/
structure St where
  raw : ℚ
  mb : ℤ
  sel : List (ℕ × ℕ)
deriving DecidableEq, Repr

/-- The descending lexicographic comparison on (raw, bonus) used by
`prune_states`' initial sort (`sorted(..., key=(raw, bonus), reverse=True)`). -/
def stLE (a b : St) : Bool :=
  decide (b.raw < a.raw ∨ (a.raw = b.raw ∧ b.mb ≤ a.mb))

/-- The sweep of `prune_states`: walk the sorted states keeping those whose
bonus strictly exceeds the running maximum (initialized to -1 in the source). -/
def sweep : ℤ → List St → List St
  | _, [] => []
  | maxB, s :: rest => if maxB < s.mb then s :: sweep s.mb rest else sweep maxB rest

/-- The source function `prune_states`: sort by (raw, bonus) descending, then keep
states of strictly increasing bonus. -/
def prune_states (l : List St) : List St := sweep (-1) (sortBy stLE l)

/-- Extend a DP state with `k` copies of group `g` (index `gi`): add `k` times
the power, add the group bonus once if `k ≥ 1`, and record the choice. -/
def extendSt (gi : ℕ) (g : ItemGroup) (k : ℕ) (s : St) : St :=
  { raw := s.raw + (k : ℚ) * g.power
    mb := s.mb + (if 1 ≤ k then g.bonus_percent else 0)
    sel := if k = 0 then s.sel else s.sel ++ [(gi, k)] }

/-- The un-pruned bucket of width `w'` obtained by extending the table `dpf`
with group `g`: for every existing width `u` and every `k` up to the first
that overflows `maxU` (the `break` in the source), states reaching `w'` are
collected.  Widths are iterated in ascending order (see module comment). -/
def newBucket (maxU : ℕ) (gi : ℕ) (g : ItemGroup) (dpf : ℕ → List St) (w' : ℕ) : List St :=
  (List.range (maxU + 1)).flatMap fun u =>
    (((List.range (g.count + 1)).takeWhile fun k =>
        decide (u + k * g.width ≤ maxU)).filter fun k =>
          decide (u + k * g.width = w')).flatMap fun k =>
      (dpf u).map (extendSt gi g k)

/-- One group-processing round of `compute_dp_for_max_units`: extend then
prune every width bucket. -/
def dpStep (maxU : ℕ) (gi : ℕ) (g : ItemGroup) (dpf : ℕ → List St) : ℕ → List St :=
  fun w' => prune_states (newBucket maxU gi g dpf w')

/-- The initial DP table `{0: [(0.0, 0, {})]}`. -/
def dpInit : ℕ → List St := fun w => if w = 0 then [⟨0, 0, []⟩] else []

/-- Process the remaining groups, tracking the index of the next group. -/
def dpLoop (maxU : ℕ) : ℕ → List ItemGroup → (ℕ → List St) → (ℕ → List St)
  | _, [], dpf => dpf
  | gi, g :: rest, dpf => dpLoop maxU (gi + 1) rest (dpStep maxU gi g dpf)

/-- The source function `compute_dp_for_max_units`: the pruned DP table for all
widths up to `max_units`, mapping each width to its state frontier. -/
def compute_dp_for_max_units (groups : List ItemGroup) (max_units : ℕ) : ℕ → List St :=
  dpLoop max_units 0 groups dpInit

/-- The final-power formula of the source:
`final = raw * (1.0 + (mb + avg_rack_percent) / 10000.0)`. -/
def finalOf (s : St) (avg : ℤ) : ℚ := s.raw * (1 + ((s.mb + avg : ℤ) : ℚ) / 10000)

/-- One step of the best-state scan: `if best is None or final > best`. -/
def bestStep (avg : ℤ) (acc : Option (ℕ × St)) (p : ℕ × St) : Option (ℕ × St) :=
  match acc with
  | none => some p
  | some q => if finalOf q.2 avg < finalOf p.2 avg then some p else some q

/-- The pairs `(w, state)` scanned when evaluating a trial: every bucket of
width at most `cap` (the `if w > cap_units: continue` filter). -/
def scanPairs (dpf : ℕ → List St) (maxU cap : ℕ) : List (ℕ × St) :=
  (List.range (maxU + 1)).flatMap fun w =>
    if w ≤ cap then (dpf w).map (fun s => (w, s)) else []

/-- Fold the best-state accumulator over a pair list. -/
def foldBest (avg : ℤ) (l : List (ℕ × St)) : Option (ℕ × St) :=
  l.foldl (bestStep avg) none

/-- The best `(width, state)` of the table under capacity `cap` and average
rack bonus `avg` (first state attaining the maximal final power). -/
def bestStateScan (dpf : ℕ → List St) (maxU cap : ℕ) (avg : ℤ) : Option (ℕ × St) :=
  foldBest avg (scanPairs dpf maxU cap)

/-- The `top3`/`top4` plus fallback padding from `optimize_mixed_racks`:
take the first `r` inventory percents and pad a shortfall with the fallback. -/
def padTop (r : ℕ) (l : List ℤ) (fb : ℤ) : List ℤ :=
  let t := l.take r
  if t.length < r ∧ 0 < r then t ++ List.replicate (r - t.length) fb else t

/-- Same padding for the parallel name lists. -/
def padTopNames (r : ℕ) (l : List String) (d : String) : List String :=
  let t := l.take r
  if t.length < r ∧ 0 < r then t ++ List.replicate (r - t.length) d else t

/-- The average rack percent of the source,
`avg_rack_percent = int(sum(all_perc)/len(all_perc)) if all_perc else 0`
from the source (the two conditional `extend`s amount to concatenation). -/
def avgRackPercentOf (r3 r4 : ℕ) (p3 p4 : List ℤ) (fb3 fb4 : ℤ) : ℤ :=
  let all_perc := padTop r3 p3 fb3 ++ padTop r4 p4 fb4
  if all_perc = [] then 0 else ratTrunc ((all_perc.sum : ℚ) / (all_perc.length : ℚ))

/-- A rack-mix candidate as recorded by `optimize_mixed_racks`. -/
structure Candidate where
  r3 : ℕ
  r4 : ℕ
  total_racks : ℕ
  final_power : ℚ
  raw_power : ℚ
  miner_bonus_percent : ℤ
  used_units : ℕ
  avg_rack_percent : ℤ
  selection : List (ℕ × ℕ)
  rack_name_list : List String
deriving DecidableEq, Repr

/-- The loop body of `optimize_mixed_racks` for one trial `r3`
(with `r4 = capacity_racks - r3`). -/
def trial_candidate (dpf : ℕ → List St) (maxU : ℕ) (capacity_racks r3 : ℕ)
    (p3 p4 : List ℤ) (n3 n4 : List String) (fb3 fb4 : ℤ) : Option Candidate :=
  let r4 := capacity_racks - r3
  let cap_units := r3 * 3 * 2 + r4 * 4 * 2
  let avg := avgRackPercentOf r3 r4 p3 p4 fb3 fb4
  match bestStateScan dpf maxU cap_units avg with
  | none => none
  | some (w, s) =>
      some { r3 := r3
             r4 := r4
             total_racks := r3 + r4
             final_power := finalOf s avg
             raw_power := s.raw
             miner_bonus_percent := s.mb
             used_units := w
             avg_rack_percent := avg
             selection := s.sel
             rack_name_list :=
               padTopNames r3 n3 ("3-étages") ++ padTopNames r4 n4 ("4-étages") }

/-- Descending comparison of candidates by final power
(`sorted(..., key=final_power, reverse=True)`). -/
def leFinal (a b : Candidate) : Bool := decide (b.final_power ≤ a.final_power)

/-- The unsorted candidate list of `optimize_mixed_racks`: one candidate per
exact split `r3 + r4 = capacity_racks` (a trial with `total_racks = 0` —
i.e. a zero budget — is skipped), evaluated against the DP built once for the
all-4-floor ceiling. -/
def opt_candidates (groups : List ItemGroup) (capacity_racks : ℕ)
    (p3 p4 : List ℤ) (n3 n4 : List String) (fb3 fb4 : ℤ) : List Candidate :=
  (List.range (capacity_racks + 1)).filterMap fun r3 =>
    if capacity_racks = 0 then none
    else trial_candidate (compute_dp_for_max_units groups (capacity_racks * 4 * 2))
      (capacity_racks * 4 * 2) capacity_racks r3 p3 p4 n3 n4 fb3 fb4

/-- The source function `optimize_mixed_racks`: sort the per-trial candidates by
final power descending and keep the first `topN`. -/
def optimize_mixed_racks (groups : List ItemGroup) (capacity_racks : ℕ)
    (p3 p4 : List ℤ) (n3 n4 : List String) (fb3 fb4 : ℤ) (topN : ℕ) : List Candidate :=
  (sortBy leFinal (opt_candidates groups capacity_racks p3 p4 n3 n4 fb3 fb4)).take topN

/-- The final power of the best returned candidate, if any. -/
def bestFinalPower (groups : List ItemGroup) (capacity_racks : ℕ) (p3 p4 : List ℤ)
    (n3 n4 : List String) (fb3 fb4 : ℤ) (topN : ℕ) : Option ℚ :=
  ((optimize_mixed_racks groups capacity_racks p3 p4 n3 n4 fb3 fb4 topN).head?).map
    (fun c => c.final_power)

/-- A physical rack: floors hold the remaining slot capacity (2 each at
creation). -/
structure PhysicalRack where
  height : ℕ
  name : String
  floors : List ℤ
  miners : List MinerRec
  raw : ℚ
  miners_count : ℕ
deriving DecidableEq, Repr

/-- A fresh rack of the given height: `height` floors of 2 free slot units. -/
def newRack (h : ℕ) (nm : String) : PhysicalRack := ⟨h, nm, List.replicate h 2, [], 0, 0⟩

/-- Descending comparison of instances by power. -/
def leInstPow (a b : MinerRec) : Bool := decide (b.power ≤ a.power)

/-- All `(rack index, floor index, rack raw + instance power)` placements whose
floor has enough remaining capacity, in scan order. -/
def candidatePlacements (racks : List PhysicalRack) (inst : MinerRec) : List (ℕ × ℕ × ℚ) :=
  racks.enum.flatMap fun rp =>
    rp.2.floors.enum.filterMap fun fp =>
      if (inst.width : ℤ) ≤ fp.2 then some (rp.1, fp.1, rp.2.raw + inst.power)
      else none

/-- The greedy choice of `assign_miners_to_racks`: the first placement whose
post-placement rack raw strictly exceeds the running best (initialized -1). -/
def pickBest (cands : List (ℕ × ℕ × ℚ)) : ℚ × Option (ℕ × ℕ) :=
  cands.foldl (fun acc c => if acc.1 < c.2.2 then (c.2.2, some (c.1, c.2.1)) else acc)
    (-1, none)

/-- Commit a placement: subtract the instance width from the chosen floor and
append the instance to the chosen rack. -/
def applyPlacement (racks : List PhysicalRack) (inst : MinerRec) (ri fi : ℕ) :
    List PhysicalRack :=
  match racks.get? ri with
  | none => racks
  | some rack =>
      racks.set ri { rack with
        floors := rack.floors.set fi (rack.floors.getD fi 0 - (inst.width : ℤ))
        miners := rack.miners ++ [inst]
        raw := rack.raw + inst.power }

/-- Place one instance at the greedy best (rack, floor) choice; if no floor
fits, skip the instance silently. -/
def placeInst (racks : List PhysicalRack) (inst : MinerRec) : List PhysicalRack :=
  match (pickBest (candidatePlacements racks inst)).2 with
  | none => racks
  | some (ri, fi) => applyPlacement racks inst ri fi

/-- Descending comparison of racks by raw power. -/
def leRackRaw (a b : PhysicalRack) : Bool := decide (b.raw ≤ a.raw)

/-- The source function `assign_miners_to_racks`: build `r3` 3-floor and `r4`
4-floor racks (names consumed in order, default labels on shortfall), expand
the selection into instances, sort them by power descending, place greedily,
record counts and sort racks by raw power descending. -/
def assign_miners_to_racks (selection : List (ℕ × ℕ)) (groups : List ItemGroup)
    (r3 r4 : ℕ) (rack_names : List String) : List PhysicalRack :=
  let racks0 :=
    ((List.range r3).map fun i => newRack 3 (rack_names.getD i ("3-étages"))) ++
    ((List.range r4).map fun j => newRack 4 (rack_names.getD (r3 + j) ("4-étages")))
  let insts := selection.flatMap fun p =>
    List.replicate p.2
      (MinerRec.mk (groups.getD p.1 dfltGroup).name (groups.getD p.1 dfltGroup).level
        (groups.getD p.1 dfltGroup).power (groups.getD p.1 dfltGroup).width
        (groups.getD p.1 dfltGroup).bonus_percent)
  let placed := (sortBy leInstPow insts).foldl placeInst racks0
  sortBy leRackRaw (placed.map fun r => { r with miners_count := r.miners.length })

/-- The exported layout (`room_layout_optimal.json` content that `main`
writes for a non-empty run). -/
structure Layout where
  capacity : ℕ
  best : Candidate
  racks : List PhysicalRack
deriving DecidableEq, Repr

/-- The `main` pipeline on pre-merged inputs: an empty miner list returns
early (a message is printed, nothing is built); otherwise group, search the
rack mixes, and materialize the best candidate. -/
def runPipeline (miners : List MinerRec) (capacity : ℕ) (p3 p4 : List ℤ)
    (n3 n4 : List String) (fb3 fb4 : ℤ) (topN : ℕ) : Option Layout :=
  if miners = [] then none
  else
    let groups := group_miners miners
    let tops := optimize_mixed_racks groups capacity p3 p4 n3 n4 fb3 fb4 topN
    match tops.head? with
    | none => none
    | some best =>
        some ⟨capacity, best,
          assign_miners_to_racks best.selection groups best.r3 best.r4 best.rack_name_list⟩

/-- The count chosen for group `g` by a recorded selection (0 when absent). -/
def choiceCount (sel : List (ℕ × ℕ)) (g : ℕ) : ℕ :=
  ((sel.find? fun p => p.1 == g).map Prod.snd).getD 0

/-- Modelled from the spec (§4.3): the top-`r` available bonus values of one
height class, padded with the fallback on shortfall. -/
def specTopPadded (l : List ℤ) (r : ℕ) (fb : ℤ) : List ℤ :=
  l.take r ++ List.replicate (r - (l.take r).length) fb

/-- Modelled from the spec (§4.3): the arithmetic mean of a bonus list. -/
def specMean (l : List ℤ) : ℚ := (l.sum : ℚ) / (l.length : ℚ)

/-- Order- and bound-insensitive normal form of `newBucket` (contributions can
only come from source widths `u ≤ w'`). -/
def canonBucket (gi : ℕ) (g : ItemGroup) (dpf : ℕ → List St) (w' : ℕ) : List St :=
  (List.range (w' + 1)).flatMap fun u =>
    ((List.range (g.count + 1)).filter fun k =>
        decide (u + k * g.width = w')).flatMap fun k =>
      (dpf u).map (extendSt gi g k)

/-! ### Generic facts about the stable sort -/

theorem insertD_perm {α : Type} (le : α → α → Bool) (a : α) (l : List α) :
    (insertD le a l).Perm (a :: l) := by
  induction l with
  | nil => simp [insertD]
  | cons b t ih =>
      by_cases h : le a b = true
      · simp [insertD, h]
      · simp only [insertD, h, if_false, Bool.false_eq_true]
        exact (List.Perm.cons b ih).trans (List.Perm.swap a b t)

theorem sortBy_perm {α : Type} (le : α → α → Bool) (l : List α) :
    (sortBy le l).Perm l := by
  induction l with
  | nil => simp [sortBy]
  | cons a t ih =>
      have h1 : sortBy le (a :: t) = insertD le a (sortBy le t) := rfl
      rw [h1]
      exact (insertD_perm le a (sortBy le t)).trans (ih.cons a)

theorem mem_sortBy {α : Type} {le : α → α → Bool} {l : List α} {x : α} :
    x ∈ sortBy le l ↔ x ∈ l := (sortBy_perm le l).mem_iff

theorem mem_insertD {α : Type} {le : α → α → Bool} {a x : α} {l : List α} :
    x ∈ insertD le a l ↔ x = a ∨ x ∈ l := by
  rw [(insertD_perm le a l).mem_iff, List.mem_cons]

theorem insertD_pairwise {α : Type} {le : α → α → Bool}
    (htrans : ∀ a b c, le a b = true → le b c = true → le a c = true)
    (htotal : ∀ a b, le a b = true ∨ le b a = true)
    (a : α) (l : List α) (hl : l.Pairwise (fun x y => le x y = true)) :
    (insertD le a l).Pairwise (fun x y => le x y = true) := by
  induction l with
  | nil => simp [insertD]
  | cons b t ih =>
      rcases List.pairwise_cons.mp hl with ⟨hb, ht⟩
      by_cases h : le a b = true
      · simp only [insertD, h, if_true]
        refine List.pairwise_cons.mpr ⟨?_, hl⟩
        intro y hy
        rcases List.mem_cons.mp hy with rfl | hyt
        · exact h
        · exact htrans a b y h (hb y hyt)
      · simp only [insertD, h, if_false, Bool.false_eq_true]
        refine List.pairwise_cons.mpr ⟨?_, ih ht⟩
        intro y hy
        rcases mem_insertD.mp hy with heq | hyt
        · rw [heq]
          rcases htotal a b with hab | hba
          · exact absurd hab h
          · exact hba
        · exact hb y hyt

theorem sortBy_pairwise {α : Type} {le : α → α → Bool}
    (htrans : ∀ a b c, le a b = true → le b c = true → le a c = true)
    (htotal : ∀ a b, le a b = true ∨ le b a = true)
    (l : List α) :
    (sortBy le l).Pairwise (fun x y => le x y = true) := by
  induction l with
  | nil => simp [sortBy]
  | cons a t ih => exact insertD_pairwise htrans htotal a (sortBy le t) ih

theorem sortBy_head_le {α : Type} {le : α → α → Bool}
    (htrans : ∀ a b c, le a b = true → le b c = true → le a c = true)
    (htotal : ∀ a b, le a b = true ∨ le b a = true)
    {l : List α} {c0 : α} {t : List α} (h : sortBy le l = c0 :: t) :
    ∀ c ∈ l, le c0 c = true := by
  intro c hc
  have hmem : c ∈ c0 :: t := by
    rw [← h]; exact mem_sortBy.mpr hc
  have hp : (c0 :: t).Pairwise (fun x y => le x y = true) := by
    rw [← h]; exact sortBy_pairwise htrans htotal l
  rcases List.mem_cons.mp hmem with rfl | hct
  · rcases htotal c c with h' | h' <;> exact h'
  · exact (List.pairwise_cons.mp hp).1 c hct

/-! ### Facts about the dominance sweep and `prune_states` -/

theorem sweep_sublist (l : List St) (maxB : ℤ) : (sweep maxB l).Sublist l := by
  induction l generalizing maxB with
  | nil => simp [sweep]
  | cons s rest ih =>
      by_cases h : maxB < s.mb
      · simpa [sweep, h] using (ih s.mb).cons₂ s
      · simpa [sweep, h] using (ih maxB).cons s

theorem sweep_mem_mb {l : List St} {maxB : ℤ} {s : St} (h : s ∈ sweep maxB l) :
    maxB < s.mb := by
  induction l generalizing maxB with
  | nil => simp [sweep] at h
  | cons x rest ih =>
      by_cases hx : maxB < x.mb
      · simp only [sweep, hx, if_true, List.mem_cons] at h
        rcases h with rfl | h
        · exact hx
        · exact lt_trans hx (ih h)
      · simp only [sweep, hx, if_false] at h
        exact ih h

theorem sweep_pairwise_mb (l : List St) (maxB : ℤ) :
    (sweep maxB l).Pairwise (fun a b => a.mb < b.mb) := by
  induction l generalizing maxB with
  | nil => simp [sweep]
  | cons s rest ih =>
      by_cases h : maxB < s.mb
      · simp only [sweep, h, if_true]
        exact List.pairwise_cons.mpr ⟨fun t ht => sweep_mem_mb ht, ih s.mb⟩
      · simp only [sweep, h, if_false]
        exact ih maxB

/-- The strict-dominance relation of the spec: `a` dominates `b` when
`a.raw ≥ b.raw`, `a.mb ≥ b.mb` and at least one is strict. -/
def strictDom (a b : St) : Prop :=
  b.raw ≤ a.raw ∧ b.mb ≤ a.mb ∧ (b.raw < a.raw ∨ b.mb < a.mb)

/-- The ordering used in `prune_states`' sort, as a proposition. -/
def lexGE (a b : St) : Prop := b.raw < a.raw ∨ (a.raw = b.raw ∧ b.mb ≤ a.mb)

theorem stLE_iff (a b : St) : stLE a b = true ↔ lexGE a b := by
  simp [stLE, lexGE]

theorem stLE_trans : ∀ a b c, stLE a b = true → stLE b c = true → stLE a c = true := by
  intro a b c hab hbc
  rw [stLE_iff] at *
  rcases hab with h1 | ⟨h1, h1'⟩ <;> rcases hbc with h2 | ⟨h2, h2'⟩
  · exact Or.inl (lt_trans h2 h1)
  · exact Or.inl (h2 ▸ h1)
  · exact Or.inl (h1 ▸ h2)
  · exact Or.inr ⟨h1.trans h2, le_trans h2' h1'⟩

theorem stLE_total : ∀ a b, stLE a b = true ∨ stLE b a = true := by
  intro a b
  rw [stLE_iff, stLE_iff]
  rcases lt_trichotomy a.raw b.raw with h | h | h
  · exact Or.inr (Or.inl h)
  · rcases le_total b.mb a.mb with h' | h'
    · exact Or.inl (Or.inr ⟨h, h'⟩)
    · exact Or.inr (Or.inr ⟨h.symm, h'⟩)
  · exact Or.inl (Or.inl h)

theorem prune_subset {l : List St} {s : St} (h : s ∈ prune_states l) : s ∈ l := by
  have h1 : s ∈ sortBy stLE l := (sweep_sublist (sortBy stLE l) (-1)).mem h
  exact mem_sortBy.mp h1

theorem prune_pairwise_lexGE (l : List St) :
    (prune_states l).Pairwise lexGE := by
  have h1 : (sortBy stLE l).Pairwise (fun x y => stLE x y = true) :=
    sortBy_pairwise stLE_trans stLE_total l
  have h2 : (prune_states l).Pairwise (fun x y => stLE x y = true) :=
    List.Pairwise.sublist (sweep_sublist (sortBy stLE l) (-1)) h1
  exact h2.imp (fun h => (stLE_iff _ _).mp h)

theorem prune_pairwise_mb (l : List St) :
    (prune_states l).Pairwise (fun a b => a.mb < b.mb) :=
  sweep_pairwise_mb (sortBy stLE l) (-1)

theorem prune_pairwise_noncomp (l : List St) :
    (prune_states l).Pairwise (fun a b => ¬ strictDom a b ∧ ¬ strictDom b a) := by
  have h := (prune_pairwise_lexGE l).and (prune_pairwise_mb l)
  refine h.imp ?_
  rintro a b ⟨hlex, hmb⟩
  constructor
  · rintro ⟨-, hble, -⟩
    exact absurd hmb (not_lt.mpr hble)
  · rintro ⟨hle, -, -⟩
    rcases hlex with h1 | ⟨h1, h2⟩
    · exact absurd hle (not_le.mpr h1)
    · exact absurd hmb (not_lt.mpr h2)

theorem sweep_drop {l : List St} {maxB : ℤ} {s : St}
    (hp : l.Pairwise lexGE) (hmem : s ∈ l) (hns : s ∉ sweep maxB l) :
    s.mb ≤ maxB ∨ ∃ t ∈ sweep maxB l, s.raw ≤ t.raw ∧ s.mb ≤ t.mb := by
  induction l generalizing maxB with
  | nil => simp at hmem
  | cons x rest ih =>
      rcases List.pairwise_cons.mp hp with ⟨hx, hrest⟩
      by_cases hk : maxB < x.mb
      · simp only [sweep, hk, if_true] at hns ⊢
        have hsx : s ≠ x := fun h => hns (h ▸ List.mem_cons_self x _)
        have hsrest : s ∈ rest := by
          rcases List.mem_cons.mp hmem with h | h
          · exact absurd h hsx
          · exact h
        have hns' : s ∉ sweep x.mb rest := fun h => hns (List.mem_cons_of_mem x h)
        rcases ih hrest hsrest hns' with hle | ⟨t, ht, h1, h2⟩
        · refine Or.inr ⟨x, List.mem_cons_self x _, ?_, hle⟩
          rcases hx s hsrest with h | ⟨h, -⟩
          · exact le_of_lt h
          · exact le_of_eq h.symm
        · exact Or.inr ⟨t, List.mem_cons_of_mem x ht, h1, h2⟩
      · simp only [sweep, hk, if_false] at hns ⊢
        rcases List.mem_cons.mp hmem with heq | hsrest
        · exact Or.inl (heq ▸ not_lt.mp hk)
        · exact ih hrest hsrest hns

/-- Every state removed by `prune_states` from a bucket of nonnegative
bonuses is weakly dominated by a retained state. -/
theorem prune_drop {l : List St} {s : St}
    (hnn : ∀ x ∈ l, (0 : ℤ) ≤ x.mb) (hmem : s ∈ l) (hns : s ∉ prune_states l) :
    ∃ t ∈ prune_states l, s.raw ≤ t.raw ∧ s.mb ≤ t.mb := by
  have hp : (sortBy stLE l).Pairwise lexGE :=
    (sortBy_pairwise stLE_trans stLE_total l).imp (fun h => (stLE_iff _ _).mp h)
  have hmem' : s ∈ sortBy stLE l := mem_sortBy.mpr hmem
  rcases sweep_drop hp hmem' hns with hle | h
  · exact absurd hle (not_le.mpr (lt_of_lt_of_le (by norm_num) (hnn s hmem)))
  · exact h

/-! ### Facts about the best-state scan -/

theorem foldl_bestStep_spec (avg : ℤ) :
    ∀ (l : List (ℕ × St)) (acc : Option (ℕ × St)) (p : ℕ × St),
    l.foldl (bestStep avg) acc = some p →
    (acc = some p ∨ p ∈ l) ∧
    (∀ q, acc = some q → finalOf q.2 avg ≤ finalOf p.2 avg) ∧
    (∀ x ∈ l, finalOf x.2 avg ≤ finalOf p.2 avg) := by
  intro l
  induction l with
  | nil =>
      intro acc p h
      simp only [List.foldl_nil] at h
      refine ⟨Or.inl h, ?_, by simp⟩
      rintro q rfl
      cases Option.some.inj h
      exact le_refl _
  | cons c rest ih =>
      intro acc p h
      simp only [List.foldl_cons] at h
      rcases ih (bestStep avg acc c) p h with ⟨hmem, hacc, hrest⟩
      have hcle : finalOf c.2 avg ≤ finalOf p.2 avg := by
        cases acc with
        | none => exact hacc c rfl
        | some q0 =>
            by_cases hlt : finalOf q0.2 avg < finalOf c.2 avg
            · exact hacc c (by simp [bestStep, hlt])
            · exact le_trans (not_lt.mp hlt) (hacc q0 (by simp [bestStep, hlt]))
      refine ⟨?_, ?_, ?_⟩
      · rcases hmem with hm | hm
        · cases acc with
          | none =>
              simp only [bestStep] at hm
              have hpc : p = c := (Option.some.inj hm).symm
              exact Or.inr (hpc ▸ List.mem_cons_self c rest)
          | some q0 =>
              by_cases hlt : finalOf q0.2 avg < finalOf c.2 avg
              · simp only [bestStep, hlt, if_true] at hm
                have hpc : p = c := (Option.some.inj hm).symm
                exact Or.inr (hpc ▸ List.mem_cons_self c rest)
              · simp only [bestStep, hlt, if_false] at hm
                exact Or.inl hm
        · exact Or.inr (List.mem_cons_of_mem c hm)
      · intro q hq
        cases acc with
        | none => cases hq
        | some q0 =>
            obtain rfl : q0 = q := Option.some.inj hq
            by_cases hlt : finalOf q0.2 avg < finalOf c.2 avg
            · exact le_trans (le_of_lt hlt) (hacc c (by simp [bestStep, hlt]))
            · exact hacc q0 (by simp [bestStep, hlt])
      · intro x hx
        rcases List.mem_cons.mp hx with rfl | hx'
        · exact hcle
        · exact hrest x hx'

theorem foldBest_mem {avg : ℤ} {l : List (ℕ × St)} {p : ℕ × St}
    (h : foldBest avg l = some p) : p ∈ l := by
  rcases (foldl_bestStep_spec avg l none p h).1 with h' | h'
  · cases h'
  · exact h'

theorem foldBest_ge {avg : ℤ} {l : List (ℕ × St)} {p : ℕ × St}
    (h : foldBest avg l = some p) :
    ∀ x ∈ l, finalOf x.2 avg ≤ finalOf p.2 avg :=
  (foldl_bestStep_spec avg l none p h).2.2

theorem foldl_bestStep_some (avg : ℤ) :
    ∀ (l : List (ℕ × St)) (q : ℕ × St), ∃ p, l.foldl (bestStep avg) (some q) = some p := by
  intro l
  induction l with
  | nil => exact fun q => ⟨q, rfl⟩
  | cons c rest ih =>
      intro q
      simp only [List.foldl_cons]
      by_cases hlt : finalOf q.2 avg < finalOf c.2 avg
      · simpa [bestStep, hlt] using ih c
      · simpa [bestStep, hlt] using ih q

theorem foldBest_isSome {avg : ℤ} {l : List (ℕ × St)} (h : l ≠ []) :
    ∃ p, foldBest avg l = some p := by
  cases l with
  | nil => exact absurd rfl h
  | cons c rest =>
      have h1 : foldBest avg (c :: rest) = rest.foldl (bestStep avg) (some c) := rfl
      rw [h1]
      exact foldl_bestStep_some avg rest c

theorem mem_scanPairs {dpf : ℕ → List St} {maxU cap w : ℕ} {s : St} :
    (w, s) ∈ scanPairs dpf maxU cap ↔ w ≤ maxU ∧ w ≤ cap ∧ s ∈ dpf w := by
  constructor
  · intro h
    rcases List.mem_flatMap.mp h with ⟨u, hu, hin⟩
    by_cases hc : u ≤ cap
    · rw [if_pos hc] at hin
      rcases List.mem_map.mp hin with ⟨s', hs', heq⟩
      have hu' : u < maxU + 1 := List.mem_range.mp hu
      have huw : u = w := congrArg Prod.fst heq
      have hss : s' = s := congrArg Prod.snd heq
      subst huw; subst hss
      exact ⟨by omega, hc, hs'⟩
    · rw [if_neg hc] at hin
      cases hin
  · rintro ⟨h1, h2, h3⟩
    refine List.mem_flatMap.mpr ⟨w, List.mem_range.mpr (by omega), ?_⟩
    rw [if_pos h2]
    exact List.mem_map_of_mem _ h3

theorem takeWhile_eq_filter_of_down {p : ℕ → Bool} :
    ∀ l : List ℕ, (l.Pairwise fun a b => p b = true → p a = true) →
    l.takeWhile p = l.filter p := by
  intro l
  induction l with
  | nil => simp
  | cons a t ih =>
      intro hp
      rcases List.pairwise_cons.mp hp with ⟨ha, ht⟩
      by_cases hpa : p a = true
      · rw [List.takeWhile_cons, List.filter_cons, if_pos hpa, if_pos hpa, ih ht]
      · rw [List.takeWhile_cons, List.filter_cons, if_neg hpa, if_neg hpa]
        exact (List.filter_eq_nil_iff.mpr fun b hb hpb => hpa (ha b hb hpb)).symm

theorem newBucket_eq_canon {maxU gi : ℕ} {g : ItemGroup} {dpf : ℕ → List St} {w' : ℕ}
    (h : w' ≤ maxU) :
    newBucket maxU gi g dpf w' = canonBucket gi g dpf w' := by
  unfold newBucket canonBucket
  have hsplit : List.range (maxU + 1)
      = List.range (w' + 1) ++ (List.range (maxU - w')).map fun x => (w' + 1) + x := by
    have : maxU + 1 = (w' + 1) + (maxU - w') := by omega
    rw [this, List.range_add]
  rw [hsplit, List.flatMap_append, List.flatMap_map]
  have hks : ∀ u : ℕ,
      (((List.range (g.count + 1)).takeWhile fun k =>
          decide (u + k * g.width ≤ maxU)).filter fun k =>
            decide (u + k * g.width = w'))
      = (List.range (g.count + 1)).filter fun k => decide (u + k * g.width = w') := by
    intro u
    have htw : ((List.range (g.count + 1)).takeWhile fun k =>
        decide (u + k * g.width ≤ maxU))
        = (List.range (g.count + 1)).filter fun k => decide (u + k * g.width ≤ maxU) := by
      refine takeWhile_eq_filter_of_down _ ?_
      refine (List.pairwise_lt_range (g.count + 1)).imp ?_
      intro a b hab hb
      have hb' : u + b * g.width ≤ maxU := of_decide_eq_true hb
      have : u + a * g.width ≤ u + b * g.width :=
        Nat.add_le_add_left (Nat.mul_le_mul_right _ (le_of_lt hab)) u
      exact decide_eq_true (le_trans this hb')
    rw [htw, List.filter_filter]
    refine List.filter_congr ?_
    intro k hk
    by_cases hkw : u + k * g.width = w'
    · have h1 : decide (u + k * g.width = w') = true := decide_eq_true hkw
      have h2 : decide (u + k * g.width ≤ maxU) = true :=
        decide_eq_true (by omega)
      rw [h1, h2]
      rfl
    · have h1 : decide (u + k * g.width = w') = false := decide_eq_false hkw
      rw [h1]
      simp
  have htail : ((List.range (maxU - w')).flatMap fun x =>
      (((List.range (g.count + 1)).takeWhile fun k =>
          decide ((w' + 1 + x) + k * g.width ≤ maxU)).filter fun k =>
            decide ((w' + 1 + x) + k * g.width = w')).flatMap fun k =>
        (dpf (w' + 1 + x)).map (extendSt gi g k)) = [] := by
    refine List.flatMap_eq_nil_iff.mpr ?_
    intro x hx
    have hfil : (((List.range (g.count + 1)).takeWhile fun k =>
        decide ((w' + 1 + x) + k * g.width ≤ maxU)).filter fun k =>
          decide ((w' + 1 + x) + k * g.width = w')) = [] := by
      refine List.filter_eq_nil_iff.mpr ?_
      intro k hk hdk
      have : (w' + 1 + x) + k * g.width = w' := of_decide_eq_true hdk
      omega
    rw [hfil]
    rfl
  rw [htail, List.append_nil]
  refine List.flatMap_congr ?_
  intro u hu
  rw [hks u]

theorem canonBucket_congr {gi : ℕ} {g : ItemGroup} {dpf dpf' : ℕ → List St} {w' : ℕ}
    (h : ∀ u ≤ w', dpf u = dpf' u) :
    canonBucket gi g dpf w' = canonBucket gi g dpf' w' := by
  unfold canonBucket
  refine List.flatMap_congr ?_
  intro u hu
  have hu' := List.mem_range.mp hu
  rw [h u (by omega)]

theorem dpStep_trunc {U U' : ℕ} (hUU : U' ≤ U) (gi : ℕ) (g : ItemGroup)
    {dpf dpf' : ℕ → List St} (h : ∀ w ≤ U', dpf w = dpf' w) :
    ∀ w' ≤ U', dpStep U gi g dpf w' = dpStep U' gi g dpf' w' := by
  intro w' hw'
  unfold dpStep
  rw [newBucket_eq_canon (le_trans hw' hUU), newBucket_eq_canon hw',
    canonBucket_congr (fun u hu => h u (le_trans hu hw'))]

theorem dpLoop_trunc :
    ∀ (rest : List ItemGroup) (gi : ℕ) {U U' : ℕ}, U' ≤ U →
    ∀ {dpf dpf' : ℕ → List St}, (∀ w ≤ U', dpf w = dpf' w) →
    ∀ w ≤ U', dpLoop U gi rest dpf w = dpLoop U' gi rest dpf' w := by
  intro rest
  induction rest with
  | nil => intro gi U U' hUU dpf dpf' h w hw; exact h w hw
  | cons g rest ih =>
      intro gi U U' hUU dpf dpf' h w hw
      exact ih (gi + 1) hUU (fun w' hw' => dpStep_trunc hUU gi g h w' hw') w hw

/-- The DP table built for a larger ceiling agrees, bucket for bucket, with the
table built directly for any smaller ceiling on all widths up to the smaller
ceiling. -/
theorem dp_trunc {groups : List ItemGroup} {U U' : ℕ} (hUU : U' ≤ U) :
    ∀ w ≤ U', compute_dp_for_max_units groups U w = compute_dp_for_max_units groups U' w :=
  dpLoop_trunc groups 0 hUU (fun _ _ => rfl)

theorem newBucket_beyond {maxU gi : ℕ} {g : ItemGroup} {dpf : ℕ → List St} {w' : ℕ}
    (h : maxU < w') : newBucket maxU gi g dpf w' = [] := by
  unfold newBucket
  refine List.flatMap_eq_nil_iff.mpr ?_
  intro u hu
  have hfil : (((List.range (g.count + 1)).takeWhile fun k =>
      decide (u + k * g.width ≤ maxU)).filter fun k =>
        decide (u + k * g.width = w')) = [] := by
    refine List.filter_eq_nil_iff.mpr ?_
    intro k hk hdk
    have h1 := List.mem_takeWhile_imp hk
    simp only [decide_eq_true_eq] at h1
    have h2 : u + k * g.width = w' := of_decide_eq_true hdk
    omega
  rw [hfil]
  rfl

theorem dpLoop_beyond {maxU : ℕ} :
    ∀ (rest : List ItemGroup) (gi : ℕ) {dpf : ℕ → List St},
    (∀ w, maxU < w → dpf w = []) → ∀ w, maxU < w → dpLoop maxU gi rest dpf w = [] := by
  intro rest
  induction rest with
  | nil => intro gi dpf h w hw; exact h w hw
  | cons g rest ih =>
      intro gi dpf h w hw
      refine ih (gi + 1) ?_ w hw
      intro w' hw'
      show prune_states (newBucket maxU gi g dpf w') = []
      rw [newBucket_beyond hw']
      rfl

/-- Buckets above the ceiling are empty. -/
theorem dp_bucket_beyond {groups : List ItemGroup} {U w : ℕ} (h : U < w) :
    compute_dp_for_max_units groups U w = [] := by
  refine dpLoop_beyond groups 0 ?_ w h
  intro w' hw'
  show dpInit w' = []
  simp [dpInit]
  omega

theorem scanPairs_trunc {dpf dpf' : ℕ → List St} {U cap : ℕ} (hcap : cap ≤ U)
    (h : ∀ w ≤ cap, dpf w = dpf' w) :
    scanPairs dpf U cap = scanPairs dpf' cap cap := by
  unfold scanPairs
  rw [show U + 1 = (cap + 1) + (U - cap) by omega, List.range_add,
    List.flatMap_append, List.flatMap_map]
  have htail : ((List.range (U - cap)).flatMap fun x =>
      if (cap + 1) + x ≤ cap then (dpf ((cap + 1) + x)).map (fun s => ((cap + 1) + x, s))
      else []) = [] := by
    refine List.flatMap_eq_nil_iff.mpr ?_
    intro x hx
    rw [if_neg (by omega)]
  rw [htail, List.append_nil]
  refine List.flatMap_congr ?_
  intro w hw
  have hw' : w ≤ cap := by
    have := List.mem_range.mp hw
    omega
  rw [if_pos hw', if_pos hw', h w hw']

/-! ### Internal consistency of DP states (re-summing the recorded choice) -/

/-- Width of a recorded selection, summed entry-wise. -/
def selWidthL (groups : List ItemGroup) (sel : List (ℕ × ℕ)) : ℕ :=
  (sel.map fun p => p.2 * (groups.getD p.1 dfltGroup).width).sum

/-- Raw power of a recorded selection, summed entry-wise. -/
def selRawL (groups : List ItemGroup) (sel : List (ℕ × ℕ)) : ℚ :=
  (sel.map fun p => (p.2 : ℚ) * (groups.getD p.1 dfltGroup).power).sum

/-- Bonus of a recorded selection: each recorded group once. -/
def selMbL (groups : List ItemGroup) (sel : List (ℕ × ℕ)) : ℤ :=
  (sel.map fun p => (groups.getD p.1 dfltGroup).bonus_percent).sum

/-- The invariant carried by every DP state: the recorded selection re-sums to
the bucket width, raw power and bonus; its keys are strictly increasing and
below `bound`, with positive counts. -/
def StInv (groups : List ItemGroup) (bound w : ℕ) (s : St) : Prop :=
  selWidthL groups s.sel = w ∧ selRawL groups s.sel = s.raw ∧
  selMbL groups s.sel = s.mb ∧
  (s.sel.map Prod.fst).Pairwise (· < ·) ∧ ∀ p ∈ s.sel, p.1 < bound ∧ 1 ≤ p.2

theorem mem_canonBucket {gi : ℕ} {g : ItemGroup} {dpf : ℕ → List St} {w' : ℕ} {s' : St} :
    s' ∈ canonBucket gi g dpf w' ↔
    ∃ u ≤ w', ∃ k ≤ g.count, u + k * g.width = w' ∧ ∃ s ∈ dpf u, s' = extendSt gi g k s := by
  unfold canonBucket
  constructor
  · intro h
    rcases List.mem_flatMap.mp h with ⟨u, hu, h1⟩
    rcases List.mem_flatMap.mp h1 with ⟨k, hk, h2⟩
    rcases List.mem_map.mp h2 with ⟨s, hs, heq⟩
    rcases List.mem_filter.mp hk with ⟨hkr, hkc⟩
    refine ⟨u, ?_, k, ?_, of_decide_eq_true hkc, s, hs, heq.symm⟩
    · have := List.mem_range.mp hu; omega
    · have := List.mem_range.mp hkr; omega
  · rintro ⟨u, hu, k, hk, hw, s, hs, rfl⟩
    refine List.mem_flatMap.mpr ⟨u, List.mem_range.mpr (by omega), ?_⟩
    refine List.mem_flatMap.mpr ⟨k, ?_, ?_⟩
    · exact List.mem_filter.mpr ⟨List.mem_range.mpr (by omega), decide_eq_true hw⟩
    · exact List.mem_map_of_mem _ hs

theorem extendSt_zero (gi : ℕ) (g : ItemGroup) (s : St) : extendSt gi g 0 s = s := by
  cases s
  simp [extendSt]

theorem extendSt_inv {groups : List ItemGroup} {gi : ℕ} {g : ItemGroup} (k : ℕ) {u : ℕ}
    {s : St} (hg : groups.getD gi dfltGroup = g) (hinv : StInv groups gi u s) :
    StInv groups (gi + 1) (u + k * g.width) (extendSt gi g k s) := by
  rcases hinv with ⟨hw, hr, hb, hpw, hbd⟩
  by_cases hk : k = 0
  · subst hk
    rw [extendSt_zero, Nat.zero_mul, Nat.add_zero]
    exact ⟨hw, hr, hb, hpw,
      fun p hp => ⟨lt_trans (hbd p hp).1 (Nat.lt_succ_self gi), (hbd p hp).2⟩⟩
  · have hk1 : 1 ≤ k := Nat.one_le_iff_ne_zero.mpr hk
    refine ⟨?_, ?_, ?_, ?_, ?_⟩
    · unfold selWidthL at hw ⊢
      simp only [extendSt, if_neg hk]
      rw [List.map_append, List.sum_append, hw, List.map_singleton,
        List.sum_singleton, hg]
    · unfold selRawL at hr ⊢
      simp only [extendSt, if_neg hk]
      rw [List.map_append, List.sum_append, hr, List.map_singleton,
        List.sum_singleton, hg]
    · unfold selMbL at hb ⊢
      simp only [extendSt, if_neg hk, if_pos hk1]
      rw [List.map_append, List.sum_append, hb, List.map_singleton,
        List.sum_singleton, hg]
    · simp only [extendSt, if_neg hk]
      rw [List.map_append]
      refine List.pairwise_append.mpr ⟨hpw, List.pairwise_singleton _ _, ?_⟩
      intro a ha b hb'
      rcases List.mem_map.mp ha with ⟨p, hp, rfl⟩
      rcases List.mem_singleton.mp hb' with rfl
      exact (hbd p hp).1
    · intro p hp
      simp only [extendSt, if_neg hk] at hp
      rcases List.mem_append.mp hp with h | h
      · exact ⟨lt_trans (hbd p h).1 (Nat.lt_succ_self gi), (hbd p h).2⟩
      · rcases List.mem_singleton.mp h with rfl
        exact ⟨Nat.lt_succ_self gi, hk1⟩

theorem dpStep_inv {maxU gi : ℕ} {g : ItemGroup} {groups : List ItemGroup}
    {dpf : ℕ → List St} (hg : groups.getD gi dfltGroup = g)
    (h : ∀ u s, s ∈ dpf u → StInv groups gi u s) :
    ∀ w' s', s' ∈ dpStep maxU gi g dpf w' → StInv groups (gi + 1) w' s' := by
  intro w' s' hs'
  have hmem : s' ∈ newBucket maxU gi g dpf w' := prune_subset hs'
  by_cases hw : w' ≤ maxU
  · rw [newBucket_eq_canon hw] at hmem
    rcases mem_canonBucket.mp hmem with ⟨u, hu, k, hk, hweq, s, hsd, rfl⟩
    have := extendSt_inv k hg (h u s hsd)
    rwa [hweq] at this
  · rw [newBucket_beyond (by omega)] at hmem
    cases hmem

theorem getD_of_drop {groups : List ItemGroup} {gi : ℕ} {g : ItemGroup} {t : List ItemGroup}
    (h : groups.drop gi = g :: t) : groups.getD gi dfltGroup = g := by
  have h0 : (groups.drop gi).getD 0 dfltGroup = g := by rw [h]; rfl
  rw [List.getD_eq_getElem?_getD] at h0 ⊢
  rwa [List.getElem?_drop, Nat.add_zero] at h0

theorem dpLoop_inv {maxU : ℕ} :
    ∀ (rest : List ItemGroup) (gi : ℕ) (groups : List ItemGroup),
    groups.drop gi = rest →
    ∀ {dpf : ℕ → List St}, (∀ u s, s ∈ dpf u → StInv groups gi u s) →
    ∀ w s, s ∈ dpLoop maxU gi rest dpf w → StInv groups (gi + rest.length) w s := by
  intro rest
  induction rest with
  | nil =>
      intro gi groups hdrop dpf h w s hs
      simpa using h w s hs
  | cons g t ih =>
      intro gi groups hdrop dpf h w s hs
      have hg : groups.getD gi dfltGroup = g := getD_of_drop hdrop
      have hdrop' : groups.drop (gi + 1) = t := by
        rw [← List.tail_drop, hdrop]
        rfl
      have h' : ∀ u s', s' ∈ dpStep maxU gi g dpf u → StInv groups (gi + 1) u s' :=
        fun u s' hs' => dpStep_inv hg h u s' hs'
      have := ih (gi + 1) groups hdrop' h' w s hs
      rwa [show gi + 1 + t.length = gi + (g :: t).length by
        simp only [List.length_cons]; omega] at this

/-- Every state of the computed DP table satisfies the re-summing invariant. -/
theorem dp_inv {groups : List ItemGroup} {U w : ℕ} {s : St}
    (h : s ∈ compute_dp_for_max_units groups U w) :
    StInv groups groups.length w s := by
  have h0 : ∀ u s', s' ∈ dpInit u → StInv groups 0 u s' := by
    intro u s' hs'
    unfold dpInit at hs'
    by_cases hu : u = 0
    · subst hu
      rw [if_pos rfl] at hs'
      rcases List.mem_singleton.mp hs' with rfl
      exact ⟨rfl, rfl, rfl, List.Pairwise.nil, by simp⟩
    · rw [if_neg hu] at hs'
      cases hs'
  have := dpLoop_inv groups 0 groups (List.drop_zero groups) h0 w s h
  simpa using this

theorem choiceCount_cons (a b g : ℕ) (rest : List (ℕ × ℕ)) :
    choiceCount ((a, b) :: rest) g = if a = g then b else choiceCount rest g := by
  unfold choiceCount
  by_cases h : a = g
  · rw [if_pos h, List.find?_cons_of_pos]
    · rfl
    · simpa using h
  · rw [if_neg h, List.find?_cons_of_neg]
    simpa using h

theorem choiceCount_eq_zero {sel : List (ℕ × ℕ)} {g : ℕ}
    (h : g ∉ sel.map Prod.fst) : choiceCount sel g = 0 := by
  unfold choiceCount
  rw [List.find?_eq_none.mpr]
  · rfl
  · intro p hp hpg
    have hp1 : p.1 = g := by simpa using hpg
    exact h (hp1 ▸ List.mem_map_of_mem Prod.fst hp)

theorem sum_choiceF {M : Type} [AddCommMonoid M] (F : ℕ → ℕ → M) (hF0 : ∀ g, F g 0 = 0) :
    ∀ (sel : List (ℕ × ℕ)) (n : ℕ), (sel.map Prod.fst).Nodup → (∀ p ∈ sel, p.1 < n) →
    ∑ g ∈ Finset.range n, F g (choiceCount sel g) = (sel.map fun p => F p.1 p.2).sum := by
  intro sel
  induction sel with
  | nil =>
      intro n _ _
      rw [Finset.sum_congr rfl fun g _ => by
        rw [show choiceCount [] g = 0 from rfl, hF0]]
      simp
  | cons p rest ih =>
      intro n hnd hlt
      obtain ⟨a, b⟩ := p
      rw [List.map_cons] at hnd
      have hna : a ∉ rest.map Prod.fst := (List.nodup_cons.mp hnd).1
      have hndr : (rest.map Prod.fst).Nodup := (List.nodup_cons.mp hnd).2
      have han : a < n := hlt (a, b) (List.mem_cons_self _ _)
      have hmem : a ∈ Finset.range n := Finset.mem_range.mpr han
      have hcc0 : choiceCount rest a = 0 := choiceCount_eq_zero hna
      have herase : ∑ g ∈ Finset.range n, F g (choiceCount rest g)
          = ∑ g ∈ (Finset.range n).erase a, F g (choiceCount rest g) := by
        rw [← Finset.add_sum_erase _ (fun g => F g (choiceCount rest g)) hmem,
          hcc0, hF0, zero_add]
      calc ∑ g ∈ Finset.range n, F g (choiceCount ((a, b) :: rest) g)
          = ∑ g ∈ Finset.range n, F g (if a = g then b else choiceCount rest g) :=
            Finset.sum_congr rfl fun g _ => by rw [choiceCount_cons]
        _ = F a b + ∑ g ∈ (Finset.range n).erase a,
              F g (if a = g then b else choiceCount rest g) := by
            rw [← Finset.add_sum_erase _ _ hmem, if_pos rfl]
        _ = F a b + ∑ g ∈ (Finset.range n).erase a, F g (choiceCount rest g) := by
            congr 1
            refine Finset.sum_congr rfl ?_
            intro g hg
            rw [if_neg (Finset.ne_of_mem_erase hg).symm]
        _ = F a b + (rest.map fun p => F p.1 p.2).sum := by
            rw [← herase, ih n hndr fun q hq => hlt q (List.mem_cons_of_mem _ hq)]
        _ = (((a, b) :: rest).map fun p => F p.1 p.2).sum := by simp

/-- C7: every state in the DP table is internally consistent with its recorded
group choice: the bucket width is `Σ choice[g] * width[g]`, the raw power is
`Σ choice[g] * power[g]`, and the bonus total is the sum of `bonus_percent[g]`
over exactly the groups with `choice[g] ≥ 1`, each counted once. -/
theorem c7_state_consistency (groups : List ItemGroup) (U w : ℕ) (s : St)
    (h : s ∈ compute_dp_for_max_units groups U w) :
    w = ∑ g ∈ Finset.range groups.length,
          choiceCount s.sel g * (groups.getD g dfltGroup).width ∧
    s.raw = ∑ g ∈ Finset.range groups.length,
          (choiceCount s.sel g : ℚ) * (groups.getD g dfltGroup).power ∧
    s.mb = ∑ g ∈ Finset.range groups.length,
          (if 1 ≤ choiceCount s.sel g then (groups.getD g dfltGroup).bonus_percent
           else 0) := by
  obtain ⟨hw, hr, hb, hpw, hbd⟩ := dp_inv h
  have hnd : (s.sel.map Prod.fst).Nodup := hpw.imp fun hab => Nat.ne_of_lt hab
  have hlt : ∀ p ∈ s.sel, p.1 < groups.length := fun p hp => (hbd p hp).1
  refine ⟨?_, ?_, ?_⟩
  · rw [sum_choiceF (fun g k => k * (groups.getD g dfltGroup).width)
      (fun g => by simp) s.sel groups.length hnd hlt]
    exact hw.symm
  · rw [sum_choiceF (fun g k => (k : ℚ) * (groups.getD g dfltGroup).power)
      (fun g => by simp) s.sel groups.length hnd hlt]
    exact hr.symm
  · rw [sum_choiceF (fun g k => if 1 ≤ k then (groups.getD g dfltGroup).bonus_percent
        else 0) (fun g => by simp) s.sel groups.length hnd hlt]
    have hmap : (s.sel.map fun p =>
        if 1 ≤ p.2 then (groups.getD p.1 dfltGroup).bonus_percent else 0)
        = s.sel.map fun p => (groups.getD p.1 dfltGroup).bonus_percent :=
      List.map_congr_left fun p hp => if_pos (hbd p hp).2
    rw [hmap]
    exact hb.symm

theorem dpLoop_pairwise {maxU : ℕ} :
    ∀ (rest : List ItemGroup) (gi : ℕ) {dpf : ℕ → List St},
    (∀ w, (dpf w).Pairwise (fun a b => ¬ strictDom a b ∧ ¬ strictDom b a)) →
    ∀ w, (dpLoop maxU gi rest dpf w).Pairwise
      (fun a b => ¬ strictDom a b ∧ ¬ strictDom b a) := by
  intro rest
  induction rest with
  | nil => intro gi dpf h w; exact h w
  | cons g t ih =>
      intro gi dpf h w
      exact ih (gi + 1) (fun w' => prune_pairwise_noncomp _) w

/-- C5: after the per-width pruning pass, no two retained states of the same
width bucket are dominance-comparable. -/
theorem c5_no_comparable_states (groups : List ItemGroup) (U w : ℕ) :
    (compute_dp_for_max_units groups U w).Pairwise
      (fun a b => ¬ strictDom a b ∧ ¬ strictDom b a) := by
  refine dpLoop_pairwise groups 0 ?_ w
  intro w'
  unfold dpInit
  by_cases h : w' = 0
  · rw [if_pos h]
    exact List.pairwise_singleton _ _
  · rw [if_neg h]
    exact List.Pairwise.nil

/-- C3: for a trial split (r3, r4), scanning the single DP table built for the
ceiling `(r3+r4)*4*2` restricted to widths within the trial's effective
capacity yields exactly the best final power that a DP built directly with
that capacity as its ceiling yields. -/
theorem c3_truncation_equivalence (groups : List ItemGroup) (r3 r4 : ℕ) (avg : ℤ) :
    (bestStateScan (compute_dp_for_max_units groups ((r3 + r4) * 4 * 2))
        ((r3 + r4) * 4 * 2) (r3 * 3 * 2 + r4 * 4 * 2) avg).map (fun p => finalOf p.2 avg)
    = (bestStateScan (compute_dp_for_max_units groups (r3 * 3 * 2 + r4 * 4 * 2))
        (r3 * 3 * 2 + r4 * 4 * 2) (r3 * 3 * 2 + r4 * 4 * 2) avg).map
          (fun p => finalOf p.2 avg) := by
  have hcap : r3 * 3 * 2 + r4 * 4 * 2 ≤ (r3 + r4) * 4 * 2 := by omega
  have hscan : scanPairs (compute_dp_for_max_units groups ((r3 + r4) * 4 * 2))
      ((r3 + r4) * 4 * 2) (r3 * 3 * 2 + r4 * 4 * 2)
      = scanPairs (compute_dp_for_max_units groups (r3 * 3 * 2 + r4 * 4 * 2))
          (r3 * 3 * 2 + r4 * 4 * 2) (r3 * 3 * 2 + r4 * 4 * 2) :=
    scanPairs_trunc hcap (fun w hw => dp_trunc hcap w hw)
  unfold bestStateScan
  rw [hscan]

/-- C6 counterexample: two states with identical (raw, bonus) but different
selections; pruning removes the second although no retained state has raw ≥
and bonus ≥ with at least one strictly greater (strict dominance fails on the
duplicate). -/
theorem c6_counterexample :
    prune_states [(⟨5, 0, [(0, 1)]⟩ : St), ⟨5, 0, [(1, 1)]⟩] = [⟨5, 0, [(0, 1)]⟩] ∧
    ¬ strictDom (⟨5, 0, [(0, 1)]⟩ : St) ⟨5, 0, [(1, 1)]⟩ := by
  constructor
  · rfl
  · rintro ⟨-, -, h | h⟩ <;> exact absurd h (by norm_num)

/-- C6 (amended): pruning retains only states of the bucket, and, provided
every state's bonus total is nonnegative (as holds whenever group bonuses are
nonnegative), every removed state is weakly dominated by some retained state
(raw ≤ and bonus ≤; a duplicate, equal in both coordinates, also counts). -/
theorem c6_removed_weakly_dominated (l : List St)
    (hnn : ∀ x ∈ l, (0 : ℤ) ≤ x.mb) :
    (∀ t ∈ prune_states l, t ∈ l) ∧
    ∀ s ∈ l, s ∉ prune_states l →
      ∃ t ∈ prune_states l, s.raw ≤ t.raw ∧ s.mb ≤ t.mb :=
  ⟨fun _ ht => prune_subset ht, fun _ hs hns => prune_drop hnn hs hns⟩

theorem c6_witness :
    ∃ t ∈ prune_states [(⟨5, 0, [(0, 1)]⟩ : St), ⟨5, 0, [(1, 1)]⟩],
      (⟨5, 0, [(1, 1)]⟩ : St).raw ≤ t.raw ∧ (⟨5, 0, [(1, 1)]⟩ : St).mb ≤ t.mb :=
  (c6_removed_weakly_dominated [⟨5, 0, [(0, 1)]⟩, ⟨5, 0, [(1, 1)]⟩] (by decide)).2
    ⟨5, 0, [(1, 1)]⟩ (by decide) (by decide)

theorem padTop_eq_spec (r : ℕ) (l : List ℤ) (fb : ℤ) :
    padTop r l fb = specTopPadded l r fb := by
  unfold padTop specTopPadded
  by_cases h : (l.take r).length < r ∧ 0 < r
  · rw [if_pos h]
  · rw [if_neg h]
    have h1 : (l.take r).length ≤ r := by rw [List.length_take]; omega
    have h2 : r - (l.take r).length = 0 := by omega
    rw [h2]
    simp

theorem specTopPadded_length (l : List ℤ) (r : ℕ) (fb : ℤ) :
    (specTopPadded l r fb).length = r := by
  unfold specTopPadded
  rw [List.length_append, List.length_replicate]
  have h1 : (l.take r).length ≤ r := by rw [List.length_take]; omega
  omega

/-- C8 counterexample: with one 3-floor bonus of 1 and one empty 4-floor
inventory (fallbacks 0), the trial (r3, r4) = (1, 1) uses average 0, while the
arithmetic mean of the combined padded list [1, 0] is 1/2: the code truncates
the mean with `int()`. -/
theorem c8_counterexample :
    ((avgRackPercentOf 1 1 [1] [] 0 0 : ℤ) : ℚ)
      ≠ specMean (specTopPadded [1] 1 0 ++ specTopPadded [] 1 0) := by
  decide

/-- C8 (amended): for every trial with at least one rack, the effective
average rack bonus used by the code equals the integer truncation (toward
zero) of the arithmetic mean of the combined list formed by the top-r3
3-floor values and top-r4 4-floor values, shortfalls padded with the
caller-supplied fallbacks. -/
theorem c8_avg_is_truncated_mean (r3 r4 : ℕ) (p3 p4 : List ℤ) (fb3 fb4 : ℤ)
    (h : 1 ≤ r3 + r4) :
    avgRackPercentOf r3 r4 p3 p4 fb3 fb4
      = ratTrunc (specMean (specTopPadded p3 r3 fb3 ++ specTopPadded p4 r4 fb4)) := by
  unfold avgRackPercentOf
  rw [padTop_eq_spec, padTop_eq_spec]
  have hne : specTopPadded p3 r3 fb3 ++ specTopPadded p4 r4 fb4 ≠ [] := by
    intro h0
    have hlen := congrArg List.length h0
    rw [List.length_append, specTopPadded_length, specTopPadded_length] at hlen
    simp at hlen
    omega
  rw [if_neg hne]
  rfl

theorem c8_witness :
    avgRackPercentOf 1 1 [1] [] 0 0
      = ratTrunc (specMean (specTopPadded [1] 1 0 ++ specTopPadded [] 1 0)) :=
  c8_avg_is_truncated_mean 1 1 [1] [] 0 0 (by decide)

/-- C2: the claim says a width-3 item must be rejected as a fatal
configuration error at Grouping time; the code instead accepts it into a
group, the DP treats it as feasible (a frontier state of width 3 uses it),
and placement silently skips it, returning an empty rack.  This evaluates the
code on the failing input. -/
theorem c2_width3_accepted_and_skipped :
    group_miners [⟨"big", 1, 100, 3, 0⟩] = [⟨"big", 1, 100, 3, 0, 1⟩] ∧
    (compute_dp_for_max_units [⟨"big", 1, 100, 3, 0, 1⟩] 6) 3
      = [⟨100, 0, [(0, 1)]⟩] ∧
    assign_miners_to_racks [(0, 1)] [⟨"big", 1, 100, 3, 0, 1⟩] 1 0 []
      = [⟨3, "3-étages", [2, 2, 2], [], 0, 0⟩] := by
  refine ⟨rfl, by decide, by decide⟩

/-- C9 counterexample: with zero item records and a positive rack budget the
pipeline returns early and produces no Layout at all, contradicting the
claimed zero-valued Layout with positive capacity and empty racks. -/
theorem c9_counterexample :
    runPipeline [] 12 [] [] [] [] 0 0 10 = none := rfl

/-- C9 (amended): when zero item records are supplied the program completes
without error but returns early with a message, producing no Layout (the
engine is never invoked). -/
theorem c9_empty_input_no_layout (capacity : ℕ) (p3 p4 : List ℤ)
    (n3 n4 : List String) (fb3 fb4 : ℤ) (topN : ℕ) :
    runPipeline [] capacity p3 p4 n3 n4 fb3 fb4 topN = none := rfl

/-- C4: the candidate recorded for a trial (r3, r4) is a DP frontier state
within the trial's effective capacity, its final power is computed by
`raw * (1 + (bonus + avg)/10000)`, and it maximizes that final power over all
frontier states within the capacity. -/
theorem c4_trial_candidate_maximal (groups : List ItemGroup) (R r3 : ℕ)
    (p3 p4 : List ℤ) (n3 n4 : List String) (fb3 fb4 : ℤ) (c : Candidate)
    (h : trial_candidate (compute_dp_for_max_units groups (R * 4 * 2)) (R * 4 * 2)
        R r3 p3 p4 n3 n4 fb3 fb4 = some c) :
    c.used_units ≤ r3 * 3 * 2 + (R - r3) * 4 * 2 ∧
    (⟨c.raw_power, c.miner_bonus_percent, c.selection⟩ : St)
      ∈ compute_dp_for_max_units groups (R * 4 * 2) c.used_units ∧
    c.final_power
      = finalOf ⟨c.raw_power, c.miner_bonus_percent, c.selection⟩ c.avg_rack_percent ∧
    ∀ w s, w ≤ r3 * 3 * 2 + (R - r3) * 4 * 2 →
      s ∈ compute_dp_for_max_units groups (R * 4 * 2) w →
      finalOf s c.avg_rack_percent ≤ c.final_power := by
  simp only [trial_candidate] at h
  cases heq : bestStateScan (compute_dp_for_max_units groups (R * 4 * 2)) (R * 4 * 2)
      (r3 * 3 * 2 + (R - r3) * 4 * 2) (avgRackPercentOf r3 (R - r3) p3 p4 fb3 fb4) with
  | none => rw [heq] at h; cases h
  | some p =>
      obtain ⟨w0, s0⟩ := p
      rw [heq] at h
      have hc := (Option.some.inj h).symm
      subst hc
      have hmem : (w0, s0) ∈ scanPairs (compute_dp_for_max_units groups (R * 4 * 2))
          (R * 4 * 2) (r3 * 3 * 2 + (R - r3) * 4 * 2) := foldBest_mem heq
      rcases mem_scanPairs.mp hmem with ⟨hw1, hw2, hs⟩
      refine ⟨hw2, hs, rfl, ?_⟩
      intro w s hwcap hsmem
      by_cases hwU : w ≤ R * 4 * 2
      · exact foldBest_ge heq (w, s) (mem_scanPairs.mpr ⟨hwU, hwcap, hsmem⟩)
      · rw [dp_bucket_beyond (by omega)] at hsmem
        cases hsmem

theorem c4_witness :
    (⟨300, 500, [(0, 3)]⟩ : St)
      ∈ compute_dp_for_max_units [⟨"A", 0, 100, 1, 500, 3⟩] (1 * 4 * 2) 3 :=
  (c4_trial_candidate_maximal [⟨"A", 0, 100, 1, 500, 3⟩] 1 0 [] [] [] [] 0 300
    ⟨0, 1, 1, 324, 300, 500, 3, 300, [(0, 3)], ["4-étages"]⟩ (by decide)).2.1

/-! ### Placement invariants -/

/-- A rack is well-formed: one floor list entry per declared floor, and every
floor's remaining capacity lies in [0, 2]. -/
def rackOK (r : PhysicalRack) : Prop :=
  r.floors.length = r.height ∧ ∀ f ∈ r.floors, 0 ≤ f ∧ f ≤ 2

theorem pickBest_fold_from :
    ∀ (l : List (ℕ × ℕ × ℚ)) (acc : ℚ × Option (ℕ × ℕ)) (rf : ℕ × ℕ),
    (l.foldl (fun acc c => if acc.1 < c.2.2 then (c.2.2, some (c.1, c.2.1)) else acc)
        acc).2 = some rf →
    acc.2 = some rf ∨ ∃ c ∈ l, rf = (c.1, c.2.1) := by
  intro l
  induction l with
  | nil => intro acc rf h; exact Or.inl h
  | cons c rest ih =>
      intro acc rf h
      simp only [List.foldl_cons] at h
      rcases ih _ rf h with h' | ⟨c', hc', heq⟩
      · by_cases hlt : acc.1 < c.2.2
        · rw [if_pos hlt] at h'
          exact Or.inr ⟨c, List.mem_cons_self c rest, (Option.some.inj h').symm⟩
        · rw [if_neg hlt] at h'
          exact Or.inl h'
      · exact Or.inr ⟨c', List.mem_cons_of_mem c hc', heq⟩

theorem pickBest_from {cands : List (ℕ × ℕ × ℚ)} {rf : ℕ × ℕ}
    (h : (pickBest cands).2 = some rf) : ∃ c ∈ cands, rf = (c.1, c.2.1) := by
  unfold pickBest at h
  rcases pickBest_fold_from cands (-1, none) rf h with h' | h'
  · cases h'
  · exact h'

theorem mem_candidatePlacements {racks : List PhysicalRack} {inst : MinerRec}
    {ri fi : ℕ} {v : ℚ} (h : (ri, fi, v) ∈ candidatePlacements racks inst) :
    ∃ rack, racks.get? ri = some rack ∧ ∃ hfi : fi < rack.floors.length,
      (inst.width : ℤ) ≤ rack.floors[fi] := by
  unfold candidatePlacements at h
  rcases List.mem_flatMap.mp h with ⟨rp, hrp, hin⟩
  obtain ⟨ri', rack⟩ := rp
  rcases List.mem_filterMap.mp hin with ⟨fp, hfp, heq⟩
  obtain ⟨fi', free⟩ := fp
  by_cases hw : (inst.width : ℤ) ≤ free
  · rw [if_pos hw] at heq
    have h1 := Option.some.inj heq
    have hri' : ri' = ri := congrArg Prod.fst h1
    have hfi' : fi' = fi := congrArg Prod.fst (congrArg Prod.snd h1)
    subst hri'; subst hfi'
    obtain ⟨hlt, hrk⟩ := List.mem_enum hrp
    obtain ⟨hflt, hfr⟩ := List.mem_enum hfp
    refine ⟨rack, ?_, hflt, ?_⟩
    · rw [List.get?_eq_getElem?, List.getElem?_eq_getElem hlt, hrk]
    · rw [← hfr]
      exact hw
  · rw [if_neg hw] at heq
    cases heq

theorem set_update_inv {racks : List PhysicalRack} {ri fi : ℕ} {inst : MinerRec}
    {rack : PhysicalRack} (hok : ∀ r ∈ racks, rackOK r)
    (hget : racks.get? ri = some rack)
    (hfi : fi < rack.floors.length) (hw : (inst.width : ℤ) ≤ rack.floors[fi]) :
    ∀ r ∈ racks.set ri { rack with
        floors := rack.floors.set fi (rack.floors.getD fi 0 - (inst.width : ℤ))
        miners := rack.miners ++ [inst]
        raw := rack.raw + inst.power }, rackOK r := by
  intro r hr
  have hrackmem : rack ∈ racks := List.get?_mem hget
  have hrackOK := hok rack hrackmem
  rcases List.mem_iff_getElem.mp hr with ⟨j, hj, hjeq⟩
  rw [List.getElem_set] at hjeq
  by_cases hij : ri = j
  · rw [if_pos hij] at hjeq
    subst hjeq
    constructor
    · simp only [List.length_set]
      exact hrackOK.1
    · intro f hf
      rcases List.mem_iff_getElem.mp hf with ⟨j', hj', hjeq'⟩
      simp only [List.length_set] at hj'
      rw [List.getElem_set] at hjeq'
      by_cases hfj : fi = j'
      · rw [if_pos hfj] at hjeq'
        have hg : rack.floors.getD fi 0 = rack.floors[fi] := by
          rw [List.getD_eq_getElem?_getD, List.getElem?_eq_getElem hfi]
          rfl
        rw [hg] at hjeq'
        have hfmem : rack.floors[fi] ∈ rack.floors := List.getElem_mem hfi
        have hb := hrackOK.2 _ hfmem
        have hwn : (0 : ℤ) ≤ (inst.width : ℤ) := Int.natCast_nonneg _
        constructor
        · rw [← hjeq']; omega
        · rw [← hjeq']; omega
      · rw [if_neg hfj] at hjeq'
        have hfmem : rack.floors[j'] ∈ rack.floors := List.getElem_mem hj'
        rw [← hjeq']
        exact hrackOK.2 _ hfmem
  · rw [if_neg hij] at hjeq
    have hjlen : j < racks.length := by simpa using hj
    rw [← hjeq]
    exact hok _ (List.getElem_mem hjlen)

theorem placeInst_inv {racks : List PhysicalRack} {inst : MinerRec}
    (h : ∀ r ∈ racks, rackOK r) : ∀ r ∈ placeInst racks inst, rackOK r := by
  cases hpk : (pickBest (candidatePlacements racks inst)).2 with
  | none =>
      have hred : placeInst racks inst = racks := by
        unfold placeInst
        rw [hpk]
      rw [hred]
      exact h
  | some rf =>
      obtain ⟨ri, fi⟩ := rf
      have hred : placeInst racks inst = applyPlacement racks inst ri fi := by
        unfold placeInst
        rw [hpk]
      rw [hred]
      rcases pickBest_from hpk with ⟨c, hc, heq⟩
      have hc1 : ri = c.1 := congrArg Prod.fst heq
      have hc2 : fi = c.2.1 := congrArg Prod.snd heq
      have hcmem : (ri, fi, c.2.2) ∈ candidatePlacements racks inst := by
        rw [hc1, hc2]
        exact hc
      rcases mem_candidatePlacements hcmem with ⟨rack0, hget0, hfi0, hw0⟩
      have hred2 : applyPlacement racks inst ri fi = racks.set ri { rack0 with
          floors := rack0.floors.set fi (rack0.floors.getD fi 0 - (inst.width : ℤ))
          miners := rack0.miners ++ [inst]
          raw := rack0.raw + inst.power } := by
        unfold applyPlacement
        rw [hget0]
      rw [hred2]
      exact set_update_inv h hget0 hfi0 hw0

theorem foldl_placeInst_inv :
    ∀ (insts : List MinerRec) (racks : List PhysicalRack),
    (∀ r ∈ racks, rackOK r) → ∀ r ∈ insts.foldl placeInst racks, rackOK r := by
  intro insts
  induction insts with
  | nil => intro racks h; exact h
  | cons i t ih => intro racks h; exact ih (placeInst racks i) (placeInst_inv h)

/-- C10: the placement heuristic never over-fills a floor (each floor's
remaining capacity stays within [0, 2], i.e. the widths placed on one floor
never sum above 2) and never uses a floor index beyond the rack's declared
floor count (a height-h rack keeps exactly h floors). -/
theorem c10_placement_invariant (selection : List (ℕ × ℕ)) (groups : List ItemGroup)
    (r3 r4 : ℕ) (rack_names : List String)
    (hwid : ∀ g ∈ groups, 1 ≤ g.width) :
    ∀ rack ∈ assign_miners_to_racks selection groups r3 r4 rack_names,
      rack.floors.length = rack.height ∧ ∀ f ∈ rack.floors, 0 ≤ f ∧ f ≤ 2 := by
  intro rack hrack
  simp only [assign_miners_to_racks] at hrack
  rw [mem_sortBy] at hrack
  rcases List.mem_map.mp hrack with ⟨r0, hr0, hrfl⟩
  have hinit : ∀ r ∈ ((List.range r3).map fun i =>
        newRack 3 (rack_names.getD i ("3-étages"))) ++
      ((List.range r4).map fun j => newRack 4 (rack_names.getD (r3 + j) ("4-étages"))),
      rackOK r := by
    intro r hr
    rcases List.mem_append.mp hr with h | h
    all_goals
      rcases List.mem_map.mp h with ⟨i, hi, hreq⟩
    all_goals
      rw [← hreq]
      refine ⟨List.length_replicate .., ?_⟩
      intro f hf
      have := List.eq_of_mem_replicate hf
      subst this
      exact ⟨by norm_num, le_refl 2⟩
  have hok := foldl_placeInst_inv _ _ hinit r0 hr0
  rw [← hrfl]
  exact hok

theorem c10_witness :
    ((assign_miners_to_racks [(0, 1)] [⟨"A", 0, 100, 1, 500, 3⟩] 1 0 []).headD
        (newRack 3 ("x"))).floors.length
      = ((assign_miners_to_racks [(0, 1)] [⟨"A", 0, 100, 1, 500, 3⟩] 1 0 []).headD
        (newRack 3 ("x"))).height :=
  (c10_placement_invariant [(0, 1)] [⟨"A", 0, 100, 1, 500, 3⟩] 1 0 [] (by decide)
    _ (by decide)).1

/-! ### Monotonicity machinery for the rack budget -/

theorem leFinal_trans :
    ∀ a b c : Candidate, leFinal a b = true → leFinal b c = true → leFinal a c = true := by
  intro a b c hab hbc
  simp only [leFinal, decide_eq_true_eq] at *
  exact le_trans hbc hab

theorem leFinal_total : ∀ a b : Candidate, leFinal a b = true ∨ leFinal b a = true := by
  intro a b
  simp only [leFinal, decide_eq_true_eq]
  exact (le_total b.final_power a.final_power)

theorem sweep_exists_gt {l : List St} {maxB : ℤ} (h : ∃ s ∈ l, maxB < s.mb) :
    ∃ t ∈ sweep maxB l, maxB < t.mb := by
  induction l generalizing maxB with
  | nil => rcases h with ⟨s, hs, -⟩; cases hs
  | cons x rest ih =>
      by_cases hx : maxB < x.mb
      · exact ⟨x, by simp [sweep, hx], hx⟩
      · rcases h with ⟨s, hs, hmb⟩
        rcases List.mem_cons.mp hs with heq | hs'
        · exact absurd (heq ▸ hmb) hx
        · simp only [sweep, hx, if_false]
          exact ih ⟨s, hs', hmb⟩

theorem prune_exists_nonneg {l : List St} (h : ∃ s ∈ l, (0 : ℤ) ≤ s.mb) :
    ∃ t ∈ prune_states l, (0 : ℤ) ≤ t.mb := by
  rcases h with ⟨s, hs, hmb⟩
  have h1 : ∃ s ∈ sortBy stLE l, (-1 : ℤ) < s.mb :=
    ⟨s, mem_sortBy.mpr hs, by omega⟩
  rcases sweep_exists_gt h1 with ⟨t, ht, hmb'⟩
  exact ⟨t, ht, by omega⟩

theorem dpStep_zero_nonneg {maxU gi : ℕ} {g : ItemGroup} {dpf : ℕ → List St}
    (h : ∃ s ∈ dpf 0, (0 : ℤ) ≤ s.mb) :
    ∃ t ∈ dpStep maxU gi g dpf 0, (0 : ℤ) ≤ t.mb := by
  rcases h with ⟨s, hs, hmb⟩
  have hc : s ∈ canonBucket gi g dpf 0 := by
    refine mem_canonBucket.mpr ⟨0, le_refl 0, 0, Nat.zero_le _, by simp, s, hs, ?_⟩
    rw [extendSt_zero]
  have hnb : s ∈ newBucket maxU gi g dpf 0 := by
    rw [newBucket_eq_canon (Nat.zero_le maxU)]
    exact hc
  exact prune_exists_nonneg ⟨s, hnb, hmb⟩

theorem dpLoop_zero_nonneg {maxU : ℕ} :
    ∀ (rest : List ItemGroup) (gi : ℕ) {dpf : ℕ → List St},
    (∃ s ∈ dpf 0, (0 : ℤ) ≤ s.mb) →
    ∃ s ∈ dpLoop maxU gi rest dpf 0, (0 : ℤ) ≤ s.mb := by
  intro rest
  induction rest with
  | nil => intro gi dpf h; exact h
  | cons g t ih => intro gi dpf h; exact ih (gi + 1) (dpStep_zero_nonneg h)

theorem dp_zero_nonneg (groups : List ItemGroup) (U : ℕ) :
    ∃ s ∈ compute_dp_for_max_units groups U 0, (0 : ℤ) ≤ s.mb :=
  dpLoop_zero_nonneg groups 0 ⟨⟨0, 0, []⟩, by simp [dpInit], le_refl 0⟩

theorem padTop_nil (r : ℕ) (c : ℤ) : padTop r [] c = List.replicate r c := by
  unfold padTop
  cases r with
  | zero => simp
  | succ n => simp

theorem ratTrunc_intCast (c : ℤ) : ratTrunc (c : ℚ) = c := by
  unfold ratTrunc
  rw [Rat.num_intCast, Rat.den_intCast]
  exact Int.tdiv_one c

theorem avg_empty_uniform (r3 r4 : ℕ) (c : ℤ) (h : 1 ≤ r3 + r4) :
    avgRackPercentOf r3 r4 [] [] c c = c := by
  unfold avgRackPercentOf
  rw [padTop_nil, padTop_nil, ← List.replicate_add]
  have hne : List.replicate (r3 + r4) c ≠ [] := by
    intro h0
    have := congrArg List.length h0
    simp at this
    omega
  rw [if_neg hne]
  have hsum : (List.replicate (r3 + r4) c).sum = (r3 + r4 : ℤ) * c := by
    rw [List.sum_replicate]
    simp [nsmul_eq_mul]
  have hlen : (List.replicate (r3 + r4) c).length = r3 + r4 :=
    List.length_replicate _ _
  rw [hsum, hlen]
  have hnz : ((r3 + r4 : ℕ) : ℚ) ≠ 0 := by
    simp only [ne_eq, Nat.cast_eq_zero]
    omega
  have hq : (((r3 + r4 : ℤ) * c : ℤ) : ℚ) / ((r3 + r4 : ℕ) : ℚ) = (c : ℚ) := by
    have hcast : (((r3 + r4 : ℤ) * c : ℤ) : ℚ) = ((r3 + r4 : ℕ) : ℚ) * (c : ℚ) := by
      push_cast
      ring
    rw [hcast, mul_comm, mul_div_assoc, div_self hnz, mul_one]
  rw [hq, ratTrunc_intCast]

theorem trial_candidate_elim {dpf : ℕ → List St} {maxU R r3 : ℕ}
    {p3 p4 : List ℤ} {n3 n4 : List String} {fb3 fb4 : ℤ} {c : Candidate}
    (h : trial_candidate dpf maxU R r3 p3 p4 n3 n4 fb3 fb4 = some c) :
    ∃ w s, bestStateScan dpf maxU (r3 * 3 * 2 + (R - r3) * 4 * 2)
        (avgRackPercentOf r3 (R - r3) p3 p4 fb3 fb4) = some (w, s) ∧
      c.final_power = finalOf s (avgRackPercentOf r3 (R - r3) p3 p4 fb3 fb4) := by
  simp only [trial_candidate] at h
  cases heq : bestStateScan dpf maxU (r3 * 3 * 2 + (R - r3) * 4 * 2)
      (avgRackPercentOf r3 (R - r3) p3 p4 fb3 fb4) with
  | none => rw [heq] at h; cases h
  | some p =>
      obtain ⟨w, s⟩ := p
      rw [heq] at h
      have hc := (Option.some.inj h).symm
      subst hc
      exact ⟨w, s, rfl, rfl⟩

theorem trial_candidate_isSome (groups : List ItemGroup) (R r3 : ℕ)
    (p3 p4 : List ℤ) (n3 n4 : List String) (fb3 fb4 : ℤ) :
    ∃ c, trial_candidate (compute_dp_for_max_units groups (R * 4 * 2)) (R * 4 * 2)
        R r3 p3 p4 n3 n4 fb3 fb4 = some c := by
  rcases dp_zero_nonneg groups (R * 4 * 2) with ⟨s, hs, -⟩
  have hne : scanPairs (compute_dp_for_max_units groups (R * 4 * 2)) (R * 4 * 2)
      (r3 * 3 * 2 + (R - r3) * 4 * 2) ≠ [] :=
    List.ne_nil_of_mem (mem_scanPairs.mpr ⟨Nat.zero_le _, Nat.zero_le _, hs⟩)
  rcases @foldBest_isSome (avgRackPercentOf r3 (R - r3) p3 p4 fb3 fb4) _ hne with ⟨p, hp⟩
  obtain ⟨w, s'⟩ := p
  refine ⟨{ r3 := r3
            r4 := R - r3
            total_racks := r3 + (R - r3)
            final_power := finalOf s' (avgRackPercentOf r3 (R - r3) p3 p4 fb3 fb4)
            raw_power := s'.raw
            miner_bonus_percent := s'.mb
            used_units := w
            avg_rack_percent := avgRackPercentOf r3 (R - r3) p3 p4 fb3 fb4
            selection := s'.sel
            rack_name_list :=
              padTopNames r3 n3 ("3-étages") ++ padTopNames (R - r3) n4 ("4-étages") }, ?_⟩
  simp only [trial_candidate]
  rw [show bestStateScan (compute_dp_for_max_units groups (R * 4 * 2)) (R * 4 * 2)
      (r3 * 3 * 2 + (R - r3) * 4 * 2)
      (avgRackPercentOf r3 (R - r3) p3 p4 fb3 fb4) = some (w, s') from hp]

theorem trial_mem_opt_candidates {groups : List ItemGroup} {R r3 : ℕ}
    {p3 p4 : List ℤ} {n3 n4 : List String} {fb3 fb4 : ℤ} {c : Candidate}
    (h1 : 1 ≤ R) (h2 : r3 ≤ R)
    (hc : trial_candidate (compute_dp_for_max_units groups (R * 4 * 2)) (R * 4 * 2)
        R r3 p3 p4 n3 n4 fb3 fb4 = some c) :
    c ∈ opt_candidates groups R p3 p4 n3 n4 fb3 fb4 := by
  refine List.mem_filterMap.mpr ⟨r3, List.mem_range.mpr (by omega), ?_⟩
  rw [if_neg (by omega)]
  exact hc

theorem bestFinalPower_spec {groups : List ItemGroup} {R : ℕ} {p3 p4 : List ℤ}
    {n3 n4 : List String} {fb3 fb4 : ℤ} {topN : ℕ} {q : ℚ}
    (h : bestFinalPower groups R p3 p4 n3 n4 fb3 fb4 topN = some q) :
    (∃ c ∈ opt_candidates groups R p3 p4 n3 n4 fb3 fb4, q = c.final_power) ∧
    ∀ c ∈ opt_candidates groups R p3 p4 n3 n4 fb3 fb4, c.final_power ≤ q := by
  unfold bestFinalPower optimize_mixed_racks at h
  rcases Option.map_eq_some'.mp h with ⟨c0, hc0, hq⟩
  rw [List.head?_take] at hc0
  by_cases htn : topN = 0
  · rw [if_pos htn] at hc0
    cases hc0
  · rw [if_neg htn] at hc0
    cases hs : sortBy leFinal (opt_candidates groups R p3 p4 n3 n4 fb3 fb4) with
    | nil => rw [hs] at hc0; cases hc0
    | cons ch t =>
        rw [hs] at hc0
        have hch : ch = c0 := Option.some.inj hc0
        have hsorted : ch ∈ sortBy leFinal (opt_candidates groups R p3 p4 n3 n4 fb3 fb4) := by
          rw [hs]
          exact List.mem_cons_self _ _
        have hmem : ch ∈ opt_candidates groups R p3 p4 n3 n4 fb3 fb4 :=
          mem_sortBy.mp hsorted
        refine ⟨⟨ch, hmem, by rw [hch]; exact hq.symm⟩, ?_⟩
        intro c hc
        have hle := sortBy_head_le leFinal_trans leFinal_total hs c hc
        simp only [leFinal, decide_eq_true_eq] at hle
        rw [← hq, ← hch]
        exact hle

/-- C1 counterexample: one item (power 100, width 1), 4-floor bonus inventory
[1000], fallbacks 0.  With rack budget 1 the best final power is 110
(trial r4 = 1 uses the single 1000-bonus rack); with budget 2 every trial
pads the average with a 0 fallback (or uses none of the bonus inventory), so
the best final power drops to 105: increasing the budget decreased the best
final power. -/
theorem c1_counterexample :
    bestFinalPower [⟨"m", 0, 100, 1, 0, 1⟩] 1 [] [1000] [] [] 0 0 10 = some 110 ∧
    bestFinalPower [⟨"m", 0, 100, 1, 0, 1⟩] 2 [] [1000] [] [] 0 0 10 = some 105 ∧
    ¬ (110 : ℚ) ≤ 105 := by
  refine ⟨by decide, by decide, by decide⟩

/-- C1 (amended): the claimed monotonicity fails in general (see the
counterexample), but holds whenever every trial's effective average rack
bonus is the same constant — e.g. with an empty rack-bonus inventory and
equal fallbacks for both shapes: then increasing the rack budget never
decreases the final power of the best returned candidate. -/
theorem c1_budget_monotone_uniform_bonus (groups : List ItemGroup)
    (c : ℤ) (n3 n4 : List String) (topN R R' : ℕ) (q q' : ℚ)
    (hR : 1 ≤ R) (hRR : R ≤ R')
    (hq : bestFinalPower groups R [] [] n3 n4 c c topN = some q)
    (hq' : bestFinalPower groups R' [] [] n3 n4 c c topN = some q') :
    q ≤ q' := by
  obtain ⟨⟨c0, hc0mem, hq0⟩, -⟩ := bestFinalPower_spec hq
  obtain ⟨-, hub'⟩ := bestFinalPower_spec hq'
  rcases List.mem_filterMap.mp hc0mem with ⟨r3c, hr3c, hsome⟩
  rw [if_neg (by omega : ¬ R = 0)] at hsome
  rcases trial_candidate_elim hsome with ⟨w0, s0, hbs0, hf0⟩
  have havg0 : avgRackPercentOf r3c (R - r3c) [] [] c c = c := by
    apply avg_empty_uniform
    have := List.mem_range.mp hr3c
    omega
  have hmem0 : (w0, s0) ∈ scanPairs (compute_dp_for_max_units groups (R * 4 * 2))
      (R * 4 * 2) (r3c * 3 * 2 + (R - r3c) * 4 * 2) := foldBest_mem hbs0
  rcases mem_scanPairs.mp hmem0 with ⟨hw0U, hw0cap, hs0⟩
  have hUU : R * 4 * 2 ≤ R' * 4 * 2 := by omega
  have hs0' : s0 ∈ compute_dp_for_max_units groups (R' * 4 * 2) w0 := by
    rw [dp_trunc hUU w0 hw0U]
    exact hs0
  obtain ⟨c', hc'⟩ := trial_candidate_isSome groups R' 0 [] [] n3 n4 c c
  rcases trial_candidate_elim hc' with ⟨w', s', hbs', hf'⟩
  have havg' : avgRackPercentOf 0 (R' - 0) [] [] c c = c := by
    apply avg_empty_uniform
    omega
  have hc'mem : c' ∈ opt_candidates groups R' [] [] n3 n4 c c :=
    trial_mem_opt_candidates (by omega) (by omega) hc'
  have hmem0' : (w0, s0) ∈ scanPairs (compute_dp_for_max_units groups (R' * 4 * 2))
      (R' * 4 * 2) (0 * 3 * 2 + (R' - 0) * 4 * 2) :=
    mem_scanPairs.mpr ⟨by omega, by omega, hs0'⟩
  have hle1 : finalOf s0 (avgRackPercentOf 0 (R' - 0) [] [] c c)
      ≤ finalOf s' (avgRackPercentOf 0 (R' - 0) [] [] c c) :=
    foldBest_ge hbs' (w0, s0) hmem0'
  rw [havg'] at hle1
  calc q = finalOf s0 c := by rw [hq0, hf0, havg0]
    _ ≤ finalOf s' c := hle1
    _ = c'.final_power := by rw [hf', havg']
    _ ≤ q' := hub' c' hc'mem

theorem c1_witness : (100 : ℚ) ≤ 100 :=
  c1_budget_monotone_uniform_bonus [⟨"m", 0, 100, 1, 0, 1⟩] 0 [] [] 5 1 2 100 100
    (by decide) (by decide) (by decide) (by decide)

theorem c7_witness :
    (3 : ℕ) = ∑ g ∈ Finset.range ([⟨"A", 0, 100, 1, 500, 3⟩] : List ItemGroup).length,
      choiceCount (⟨300, 500, [(0, 3)]⟩ : St).sel g
        * (([⟨"A", 0, 100, 1, 500, 3⟩] : List ItemGroup).getD g dfltGroup).width :=
  (c7_state_consistency [⟨"A", 0, 100, 1, 500, 3⟩] 8 3 ⟨300, 500, [(0, 3)]⟩ (by decide)).1
